/-
Verification of the gap-detection core of the currency exchange rate
pipeline (`src/pipeline.py`).

Shallow embedding:
* `Date` models a parsed calendar date (`pd.to_datetime` result); comparison
  of timestamps is lexicographic on (year, month, day).
* Rates are modelled as rationals (`ℚ`).
* Reading a per-pair monthly-stats file is modelled as an `Option`:
  `none` means the file is absent.
* A cleaned per-pair CSV file is modelled as its name, the presence flags of
  the `DATE` and `RATE` columns, and its data rows.
-/
import Mathlib

/-- One scan step of Python's `str.replace`: at each position, if the pattern
matches there, emit the replacement and skip the match, otherwise keep the
character.  `fuel` (the string length at the call sites, where the pattern is
nonempty) bounds the scan. -/
def replaceAllChars : Nat → List Char → List Char → List Char → List Char
  | 0, s, _, _ => s
  | fuel + 1, s, pattern, replacement =>
    match s with
    | [] => []
    | c :: rest =>
      if pattern.isPrefixOf (c :: rest) then
        replacement ++ replaceAllChars fuel ((c :: rest).drop pattern.length)
          pattern replacement
      else
        c :: replaceAllChars fuel rest pattern replacement

/-- Python's `str.replace(pattern, replacement)`: replace every (non-empty,
non-overlapping) occurrence, scanning left to right. -/
def stringReplace (s pattern replacement : String) : String :=
  ⟨replaceAllChars s.data.length s.data pattern.data replacement.data⟩

/-- A calendar date as parsed from a `YYYY-MM-DD` string. -/
structure Date where
  year : Nat
  month : Nat
  day : Nat
deriving DecidableEq

/-- A calendar month, the grouping key `(year, month)` used by
`compute_monthly_stats` and the loop variable of `generate_expected_months`. -/
structure MonthKey where
  year : Nat
  month : Nat
deriving DecidableEq

/-- A date parsed from real data: month in 1..12, day at least 1. -/
def validDate (d : Date) : Prop :=
  1 ≤ d.month ∧ d.month ≤ 12 ∧ 1 ≤ d.day

instance (d : Date) : Decidable (validDate d) := by
  unfold validDate; infer_instance

/-- Strict chronological order on dates (timestamp `<`). -/
def dateLt (a b : Date) : Prop :=
  a.year < b.year ∨ (a.year = b.year ∧
    (a.month < b.month ∨ (a.month = b.month ∧ a.day < b.day)))

/-- Chronological order on dates (timestamp `<=`). -/
def dateLe (a b : Date) : Prop :=
  a.year < b.year ∨ (a.year = b.year ∧
    (a.month < b.month ∨ (a.month = b.month ∧ a.day ≤ b.day)))

instance (a b : Date) : Decidable (dateLt a b) := by
  unfold dateLt; infer_instance

instance (a b : Date) : Decidable (dateLe a b) := by
  unfold dateLe; infer_instance

/-- Linearised month number; the spec's `year*12 + month`. -/
def monthIndex (k : MonthKey) : Nat := k.year * 12 + k.month

/-- The month-advance step of `generate_expected_months`'s loop:
December rolls to January of the next year. -/
def nextMonth (k : MonthKey) : MonthKey :=
  if k.month = 12 then ⟨k.year + 1, 1⟩ else ⟨k.year, k.month + 1⟩

/-- `strftime("%Y-%m")`: canonical `YYYY-MM` string of a month key
(month zero-padded to two digits). -/
def monthStr (k : MonthKey) : String :=
  toString k.year ++ "-" ++
    (if k.month < 10 then "0" ++ toString k.month else toString k.month)

/-- The `while current_date <= max_date` loop of `generate_expected_months`,
collecting one month key per iteration.  `fuel` bounds the iteration count;
the caller passes enough fuel for the loop to terminate by its condition. -/
def expectedMonthsLoop : Nat → MonthKey → Date → List MonthKey
  | 0, _, _ => []
  | fuel + 1, current, max_date =>
    if dateLe ⟨current.year, current.month, 1⟩ max_date then
      current :: expectedMonthsLoop fuel (nextMonth current) max_date
    else
      []

/-- Python's `min(date_objects)` over a nonempty list `d :: ds`. -/
def minDateList (d : Date) (ds : List Date) : Date :=
  ds.foldl (fun a b => if dateLt b a then b else a) d

/-- Python's `max(date_objects)` over a nonempty list `d :: ds`. -/
def maxDateList (d : Date) (ds : List Date) : Date :=
  ds.foldl (fun a b => if dateLt a b then b else a) d

/-- `generate_expected_months`, key level: for an empty date list return `[]`;
otherwise run the month loop from `(min_date.year, min_date.month)` while the
first of the current month is at most `max_date`. -/
def generate_expected_keys : List Date → List MonthKey
  | [] => []
  | d :: ds =>
    let min_date := minDateList d ds
    let max_date := maxDateList d ds
    expectedMonthsLoop (monthIndex ⟨max_date.year, max_date.month⟩ + 1)
      ⟨min_date.year, min_date.month⟩ max_date

/-- `generate_expected_months` (src/pipeline.py, lines 387-425): the list of
`"YYYY-MM"` strings from the earliest to the latest observed month. -/
def generate_expected_months (dates : List Date) : List String :=
  (generate_expected_keys dates).map monthStr

/-- One row of a per-pair missing-data report: `(currency_pair, month)`. -/
abbrev MissingEntry := String × String

/-- `identify_missing_data_for_pair` (src/pipeline.py, lines 429-478).
`monthly_stats` is the `month_str` column of the pair's monthly-stats file,
`none` when that file does not exist.  Absent file: every expected month is
emitted.  Otherwise: keep the expected months not among the available ones. -/
def identify_missing_data_for_pair (currency_pair : String)
    (monthly_stats : Option (List String)) (expected_months : List String) :
    List MissingEntry :=
  match monthly_stats with
  | none => expected_months.map (fun month => (currency_pair, month))
  | some available_months =>
    let missing_months :=
      expected_months.filter (fun month => !decide (month ∈ available_months))
    missing_months.map (fun month => (currency_pair, month))

/-- Python string comparison `<`: lexicographic on the code points. -/
def strLt (a b : String) : Prop :=
  List.lt a.data b.data

/-- Python string comparison `<=` (on the total code-point order). -/
def strLe (a b : String) : Prop :=
  ¬ strLt b a

instance (a b : String) : Decidable (strLt a b) :=
  List.hasDecidableLt a.data b.data

instance (a b : String) : Decidable (strLe a b) := by
  unfold strLe; infer_instance

/-- Python tuple comparison `(pair, month) <= (pair, month)` on string pairs:
lexicographic, strings compared by code points. -/
def entryLe (a b : MissingEntry) : Prop :=
  strLt a.1 b.1 ∨ (a.1 = b.1 ∧ strLe a.2 b.2)

instance (a b : MissingEntry) : Decidable (entryLe a b) := by
  unfold entryLe; infer_instance

/-- `aggregate_missing_data` (src/pipeline.py, lines 512-559): read the known
pairs (unused below, exactly as in the source), concatenate the rows of all
per-pair missing-data files, and write them out sorted by
`(currency_pair, month)`. -/
def aggregate_missing_data (missing_data_files : List (List MissingEntry))
    (pairs_file : List String) : List MissingEntry :=
  let all_currency_pairs := pairs_file
  let all_missing_data := missing_data_files.flatten
  let _ := all_currency_pairs
  List.insertionSort entryLe all_missing_data

/-- One data row of a cleaned per-pair CSV file. -/
structure RateRow where
  DATE : Date
  RATE : ℚ
deriving DecidableEq

/-- A cleaned per-pair CSV file: its name, whether the `DATE` and `RATE`
columns are present, and its rows. -/
structure CleanedFile where
  name : String
  hasDATE : Bool
  hasRATE : Bool
  rows : List RateRow
deriving DecidableEq

/-- The `(year, month)` grouping key of a row. -/
def rowKey (r : RateRow) : MonthKey := ⟨r.DATE.year, r.DATE.month⟩

/-- Order on grouping keys: pandas `groupby(['year','month'])` sorts groups
ascending by `(year, month)`. -/
def keyLe (a b : MonthKey) : Prop :=
  a.year < b.year ∨ (a.year = b.year ∧ a.month ≤ b.month)

instance (a b : MonthKey) : Decidable (keyLe a b) := by
  unfold keyLe; infer_instance

/-- The distinct `(year, month)` groups of the rows, in ascending order. -/
def groupKeys (rows : List RateRow) : List MonthKey :=
  List.insertionSort keyLe (rows.map rowKey).dedup

/-- The rates of the rows falling in a given month. -/
def ratesForKey (rows : List RateRow) (k : MonthKey) : List ℚ :=
  (rows.filter (fun r => decide (rowKey r = k))).map RateRow.RATE

/-- `min` of a series (used on nonempty groups only). -/
def listMin : List ℚ → ℚ
  | [] => 0
  | x :: xs => xs.foldl min x

/-- `max` of a series (used on nonempty groups only). -/
def listMax : List ℚ → ℚ
  | [] => 0
  | x :: xs => xs.foldl max x

/-- One output row of a per-pair monthly-stats file. -/
structure MonthlyStat where
  month_str : String
  low : ℚ
  high : ℚ
  average : ℚ
deriving DecidableEq

/-- The aggregated row `['min', 'max', 'mean']` of one month's group. -/
def statFor (rows : List RateRow) (k : MonthKey) : MonthlyStat :=
  let rates := ratesForKey rows k
  { month_str := monthStr k
    low := listMin rates
    high := listMax rates
    average := rates.sum / (rates.length : ℚ) }

/-- `compute_monthly_stats` (src/pipeline.py, lines 303-362): if the `DATE` or
`RATE` column is missing, report and produce nothing (`none`); otherwise group
by `(year, month)` and aggregate min/max/mean, labelling the output with the
currency pair taken from the file name. -/
def compute_monthly_stats (f : CleanedFile) : Option (String × List MonthlyStat) :=
  if f.hasDATE && f.hasRATE then
    some (stringReplace f.name ".csv" "", (groupKeys f.rows).map (statFor f.rows))
  else
    none

/-- `compute_monthly_stats_flow` (src/pipeline.py, lines 365-383): run the
task per file, keeping only the successful outputs. -/
def compute_monthly_stats_flow (input_files : List CleanedFile) :
    List (String × List MonthlyStat) :=
  input_files.filterMap compute_monthly_stats

/-- A cleaned (normalized) input file as seen by the pair collector: a name
and data rows (the rows are never consulted). -/
structure NormalizedFile where
  name : String
  rows : List (List String)
deriving DecidableEq

/-- `collect_currency_pairs` (src/pipeline.py, lines 111-128): the singleton
set holding the file name with `".csv"` removed; the contents are not read. -/
def collect_currency_pairs (f : NormalizedFile) : List String :=
  [stringReplace f.name ".csv" ""]

/-- `collect_currency_pairs_flow` (src/pipeline.py, lines 160-180) combined
with `write_currency_pairs_to_csv`: union the per-file pair sets (a Python
set, modelled as a deduplicated list), then list them in ascending order. -/
def collect_currency_pairs_flow (input_files : List NormalizedFile) :
    List String :=
  let all_currency_pairs :=
    (input_files.foldl (fun acc f => acc ++ collect_currency_pairs f) []).dedup
  List.insertionSort strLe all_currency_pairs

/-- `strLt` coincides with Mathlib's linear order `<` on `String`. -/
theorem strLt_iff (a b : String) : strLt a b ↔ a < b := by
  rw [String.lt_iff_toList_lt]
  exact List.lt_iff_lex_lt a.data b.data

/-- `strLe` coincides with Mathlib's linear order `≤` on `String`. -/
theorem strLe_iff (a b : String) : strLe a b ↔ a ≤ b := by
  rw [← not_lt, ← strLt_iff b a]
  exact Iff.rfl

instance : IsTrans MissingEntry entryLe := by
  constructor
  intro a b c hab hbc
  simp only [entryLe, strLt_iff, strLe_iff] at hab hbc ⊢
  rcases hab with h1 | ⟨e1, h1⟩ <;> rcases hbc with h2 | ⟨e2, h2⟩
  · exact Or.inl (lt_trans h1 h2)
  · exact Or.inl (e2 ▸ h1)
  · exact Or.inl (e1 ▸ h2)
  · exact Or.inr ⟨e1.trans e2, le_trans h1 h2⟩

instance : IsTotal MissingEntry entryLe := by
  constructor
  intro a b
  simp only [entryLe, strLt_iff, strLe_iff]
  rcases lt_trichotomy a.1 b.1 with h | h | h
  · exact Or.inl (Or.inl h)
  · rcases le_total a.2 b.2 with h2 | h2
    · exact Or.inl (Or.inr ⟨h, h2⟩)
    · exact Or.inr (Or.inr ⟨h.symm, h2⟩)
  · exact Or.inr (Or.inl h)

instance : IsAntisymm MissingEntry entryLe := by
  constructor
  intro a b hab hba
  simp only [entryLe, strLt_iff, strLe_iff] at hab hba
  rcases hab with h1 | ⟨e1, h1⟩ <;> rcases hba with h2 | ⟨e2, h2⟩
  · exact absurd h2 (lt_asymm h1)
  · exact absurd h1 (e2 ▸ lt_irrefl b.1)
  · exact absurd h2 (e1 ▸ lt_irrefl a.1)
  · exact Prod.ext e1 (le_antisymm h1 h2)

theorem dateLe_refl (a : Date) : dateLe a a := by
  unfold dateLe; omega

theorem dateLt_le {a b : Date} (h : dateLt a b) : dateLe a b := by
  unfold dateLt at h; unfold dateLe; omega

theorem not_dateLt {a b : Date} (h : ¬ dateLt a b) : dateLe b a := by
  unfold dateLt at h; unfold dateLe; omega

theorem dateLe_trans {a b c : Date} (h1 : dateLe a b) (h2 : dateLe b c) :
    dateLe a c := by
  unfold dateLe at h1 h2 ⊢; omega

theorem minDateList_mem (d : Date) (ds : List Date) :
    minDateList d ds ∈ d :: ds := by
  induction ds generalizing d with
  | nil => simp [minDateList]
  | cons b t ih =>
    have h := ih (if dateLt b d then b else d)
    simp only [minDateList, List.foldl_cons] at h ⊢
    by_cases hbd : dateLt b d
    · rw [if_pos hbd] at h ⊢
      exact List.mem_cons_of_mem d h
    · rw [if_neg hbd] at h ⊢
      rcases List.mem_cons.mp h with h1 | h1
      · rw [h1]
        exact List.mem_cons_self _ _
      · exact List.mem_cons_of_mem _ (List.mem_cons_of_mem _ h1)

theorem minDateList_le (d : Date) (ds : List Date) :
    ∀ x ∈ d :: ds, dateLe (minDateList d ds) x := by
  induction ds generalizing d with
  | nil =>
    intro x hx
    rw [List.mem_singleton] at hx
    subst hx
    exact dateLe_refl _
  | cons b t ih =>
    intro x hx
    simp only [minDateList, List.foldl_cons]
    by_cases hbd : dateLt b d
    · rw [if_pos hbd]
      have hb := ih b
      rcases List.mem_cons.mp hx with rfl | hx1
      · exact dateLe_trans (hb b (List.mem_cons_self _ _)) (dateLt_le hbd)
      · exact hb x hx1
    · rw [if_neg hbd]
      have hd := ih d
      have hdb : dateLe d b := not_dateLt hbd
      rcases List.mem_cons.mp hx with rfl | hx1
      · exact hd x (List.mem_cons_self _ _)
      rcases List.mem_cons.mp hx1 with rfl | hx2
      · exact dateLe_trans (hd d (List.mem_cons_self _ _)) hdb
      · exact hd x (List.mem_cons_of_mem _ hx2)

theorem maxDateList_mem (d : Date) (ds : List Date) :
    maxDateList d ds ∈ d :: ds := by
  induction ds generalizing d with
  | nil => simp [maxDateList]
  | cons b t ih =>
    have h := ih (if dateLt d b then b else d)
    simp only [maxDateList, List.foldl_cons] at h ⊢
    by_cases hdb : dateLt d b
    · rw [if_pos hdb] at h ⊢
      exact List.mem_cons_of_mem d h
    · rw [if_neg hdb] at h ⊢
      rcases List.mem_cons.mp h with h1 | h1
      · rw [h1]
        exact List.mem_cons_self _ _
      · exact List.mem_cons_of_mem _ (List.mem_cons_of_mem _ h1)

theorem maxDateList_ge (d : Date) (ds : List Date) :
    ∀ x ∈ d :: ds, dateLe x (maxDateList d ds) := by
  induction ds generalizing d with
  | nil =>
    intro x hx
    rw [List.mem_singleton] at hx
    subst hx
    exact dateLe_refl _
  | cons b t ih =>
    intro x hx
    simp only [maxDateList, List.foldl_cons]
    by_cases hdb : dateLt d b
    · rw [if_pos hdb]
      have hb := ih b
      rcases List.mem_cons.mp hx with rfl | hx1
      · exact dateLe_trans (dateLt_le hdb) (hb b (List.mem_cons_self _ _))
      · exact hb x hx1
    · rw [if_neg hdb]
      have hd := ih d
      have hbd : dateLe b d := not_dateLt hdb
      rcases List.mem_cons.mp hx with rfl | hx1
      · exact hd x (List.mem_cons_self _ _)
      rcases List.mem_cons.mp hx1 with rfl | hx2
      · exact dateLe_trans hbd (hd d (List.mem_cons_self _ _))
      · exact hd x (List.mem_cons_of_mem _ hx2)

theorem monthIndex_nextMonth (k : MonthKey) :
    monthIndex (nextMonth k) = monthIndex k + 1 := by
  unfold nextMonth monthIndex
  split
  · rename Eq _ _ => h
    simp only
    omega
  · simp only
    omega

theorem nextMonth_valid {k : MonthKey} (h1 : 1 ≤ k.month) (h2 : k.month ≤ 12) :
    1 ≤ (nextMonth k).month ∧ (nextMonth k).month ≤ 12 := by
  unfold nextMonth
  split
  · simp only
    omega
  · rename Ne _ _ => h
    simp only
    omega

theorem monthKey_inj {a b : MonthKey} (ha1 : 1 ≤ a.month) (ha2 : a.month ≤ 12)
    (hb1 : 1 ≤ b.month) (hb2 : b.month ≤ 12)
    (h : monthIndex a = monthIndex b) : a = b := by
  unfold monthIndex at h
  cases a
  cases b
  simp only [MonthKey.mk.injEq]
  simp only at h ha1 ha2 hb1 hb2
  omega

theorem dateLe_first_iff {y m : Nat} {maxD : Date} (h1 : 1 ≤ m) (h2 : m ≤ 12)
    (hmax : validDate maxD) :
    dateLe ⟨y, m, 1⟩ maxD ↔ y * 12 + m ≤ maxD.year * 12 + maxD.month := by
  unfold dateLe validDate at *
  simp only at *
  omega

theorem expectedMonthsLoop_length {maxD : Date} (hmax : validDate maxD) :
    ∀ (fuel : Nat) (cur : MonthKey), 1 ≤ cur.month → cur.month ≤ 12 →
      monthIndex ⟨maxD.year, maxD.month⟩ + 1 - monthIndex cur ≤ fuel →
      (expectedMonthsLoop fuel cur maxD).length
        = monthIndex ⟨maxD.year, maxD.month⟩ + 1 - monthIndex cur := by
  intro fuel
  induction fuel with
  | zero =>
    intro cur h1 h2 hf
    simp only [expectedMonthsLoop, List.length_nil]
    omega
  | succ n ih =>
    intro cur h1 h2 hf
    simp only [expectedMonthsLoop]
    by_cases hc : dateLe ⟨cur.year, cur.month, 1⟩ maxD
    · rw [if_pos hc]
      have hidx : cur.year * 12 + cur.month ≤ maxD.year * 12 + maxD.month :=
        (dateLe_first_iff h1 h2 hmax).mp hc
      have hnv := nextMonth_valid h1 h2
      have hni := monthIndex_nextMonth cur
      have ihn := ih (nextMonth cur) hnv.1 hnv.2
        (by simp only [monthIndex] at *; omega)
      simp only [List.length_cons, ihn]
      simp only [monthIndex] at *
      omega
    · rw [if_neg hc]
      have hidx : ¬ cur.year * 12 + cur.month ≤ maxD.year * 12 + maxD.month :=
        fun hx => hc ((dateLe_first_iff h1 h2 hmax).mpr hx)
      simp only [List.length_nil, monthIndex] at *
      omega

theorem expectedMonthsLoop_get {maxD : Date} :
    ∀ (fuel : Nat) (cur : MonthKey), 1 ≤ cur.month → cur.month ≤ 12 →
      ∀ (i : Nat) (k : MonthKey), (expectedMonthsLoop fuel cur maxD)[i]? = some k →
        monthIndex k = monthIndex cur + i := by
  intro fuel
  induction fuel with
  | zero =>
    intro cur h1 h2 i k hk
    simp [expectedMonthsLoop] at hk
  | succ n ih =>
    intro cur h1 h2 i k hk
    simp only [expectedMonthsLoop] at hk
    by_cases hc : dateLe ⟨cur.year, cur.month, 1⟩ maxD
    · rw [if_pos hc] at hk
      cases i with
      | zero =>
        simp only [List.getElem?_cons_zero, Option.some.injEq] at hk
        subst hk
        omega
      | succ j =>
        have hnv := nextMonth_valid h1 h2
        simp only [List.getElem?_cons_succ] at hk
        have hj := ih (nextMonth cur) hnv.1 hnv.2 j k hk
        rw [hj, monthIndex_nextMonth]
        omega
    · rw [if_neg hc] at hk
      simp at hk

theorem expectedMonthsLoop_valid :
    ∀ (fuel : Nat) (cur : MonthKey) (maxD : Date),
      1 ≤ cur.month → cur.month ≤ 12 →
      ∀ k ∈ expectedMonthsLoop fuel cur maxD, 1 ≤ k.month ∧ k.month ≤ 12 := by
  intro fuel
  induction fuel with
  | zero =>
    intro cur maxD h1 h2 k hk
    simp [expectedMonthsLoop] at hk
  | succ n ih =>
    intro cur maxD h1 h2 k hk
    simp only [expectedMonthsLoop] at hk
    by_cases hc : dateLe ⟨cur.year, cur.month, 1⟩ maxD
    · rw [if_pos hc] at hk
      rcases List.mem_cons.mp hk with rfl | hk1
      · exact ⟨h1, h2⟩
      · have hnv := nextMonth_valid h1 h2
        exact ih _ _ hnv.1 hnv.2 k hk1
    · rw [if_neg hc] at hk
      simp at hk

theorem expectedMonthsLoop_head :
    ∀ (fuel : Nat) (cur : MonthKey) (maxD : Date) (a : MonthKey) (l : List MonthKey),
      expectedMonthsLoop fuel cur maxD = a :: l → a = cur := by
  intro fuel
  cases fuel with
  | zero =>
    intro cur maxD a l h
    simp [expectedMonthsLoop] at h
  | succ n =>
    intro cur maxD a l h
    simp only [expectedMonthsLoop] at h
    by_cases hc : dateLe ⟨cur.year, cur.month, 1⟩ maxD
    · rw [if_pos hc] at h
      exact (List.cons.injEq _ _ _ _ ▸ h).1.symm
    · rw [if_neg hc] at h
      simp at h

theorem expectedMonthsLoop_chain :
    ∀ (fuel : Nat) (cur : MonthKey) (maxD : Date),
      List.Chain' (fun a b => b = nextMonth a) (expectedMonthsLoop fuel cur maxD) := by
  intro fuel
  induction fuel with
  | zero =>
    intro cur maxD
    simp [expectedMonthsLoop]
  | succ n ih =>
    intro cur maxD
    simp only [expectedMonthsLoop]
    by_cases hc : dateLe ⟨cur.year, cur.month, 1⟩ maxD
    · rw [if_pos hc]
      rw [List.chain'_cons']
      constructor
      · intro y hy
        cases hn : expectedMonthsLoop n (nextMonth cur) maxD with
        | nil =>
          rw [hn] at hy
          simp at hy
        | cons a l =>
          rw [hn] at hy
          simp only [List.head?_cons, Option.mem_some_iff] at hy
          subst hy
          exact expectedMonthsLoop_head n (nextMonth cur) maxD a l hn
      · exact ih (nextMonth cur) maxD
    · rw [if_neg hc]
      simp

theorem getLast?_eq_get {α : Type} (l : List α) (h : 0 < l.length) :
    l.getLast? = some (l.get ⟨l.length - 1, by omega⟩) := by
  rw [List.getLast?_eq_getElem?]
  rw [List.getElem?_eq_getElem (by omega)]
  simp [List.get_eq_getElem]

/-- Claim C2: for every non-empty set of observed dates (all valid calendar
dates), the Calendar Expander produces the contiguous, strictly increasing
sequence of month keys from (minDate.year, minDate.month) to
(maxDate.year, maxDate.month) inclusive (each element followed by its calendar
successor, December rolling to January of the next year), with length
(maxYear*12+maxMonth) - (minYear*12+minMonth) + 1; for example min date
2023-11-15 and max date 2024-02-03 give
["2023-11", "2023-12", "2024-01", "2024-02"]. -/
theorem calendar_expander_range (d : Date) (ds : List Date)
    (hv : ∀ x ∈ d :: ds, validDate x) :
    (generate_expected_keys (d :: ds)).length
        = monthIndex ⟨(maxDateList d ds).year, (maxDateList d ds).month⟩
          - monthIndex ⟨(minDateList d ds).year, (minDateList d ds).month⟩ + 1
    ∧ (∀ (i : Nat) (k : MonthKey), (generate_expected_keys (d :: ds))[i]? = some k →
        monthIndex k
          = monthIndex ⟨(minDateList d ds).year, (minDateList d ds).month⟩ + i)
    ∧ (∀ k ∈ generate_expected_keys (d :: ds), 1 ≤ k.month ∧ k.month ≤ 12)
    ∧ List.Chain' (fun a b => b = nextMonth a) (generate_expected_keys (d :: ds))
    ∧ (generate_expected_keys (d :: ds)).head?
        = some ⟨(minDateList d ds).year, (minDateList d ds).month⟩
    ∧ (generate_expected_keys (d :: ds)).getLast?
        = some ⟨(maxDateList d ds).year, (maxDateList d ds).month⟩
    ∧ generate_expected_months (d :: ds)
        = (generate_expected_keys (d :: ds)).map monthStr
    ∧ generate_expected_months [⟨2023, 11, 15⟩, ⟨2024, 2, 3⟩]
        = ["2023-11", "2023-12", "2024-01", "2024-02"] := by
  have hvmin : validDate (minDateList d ds) := hv _ (minDateList_mem d ds)
  have hvmax : validDate (maxDateList d ds) := hv _ (maxDateList_mem d ds)
  have hminmax : dateLe (minDateList d ds) (maxDateList d ds) :=
    maxDateList_ge d ds _ (minDateList_mem d ds)
  have hidx : monthIndex ⟨(minDateList d ds).year, (minDateList d ds).month⟩
      ≤ monthIndex ⟨(maxDateList d ds).year, (maxDateList d ds).month⟩ := by
    unfold validDate at hvmin hvmax
    unfold dateLe at hminmax
    simp only [monthIndex]
    omega
  have hgen : generate_expected_keys (d :: ds)
      = expectedMonthsLoop
        (monthIndex ⟨(maxDateList d ds).year, (maxDateList d ds).month⟩ + 1)
        ⟨(minDateList d ds).year, (minDateList d ds).month⟩ (maxDateList d ds) := rfl
  have hlen : (generate_expected_keys (d :: ds)).length
      = monthIndex ⟨(maxDateList d ds).year, (maxDateList d ds).month⟩ + 1
        - monthIndex ⟨(minDateList d ds).year, (minDateList d ds).month⟩ := by
    rw [hgen]
    exact expectedMonthsLoop_length hvmax _ _ hvmin.1 hvmin.2.1 (by omega)
  have hget : ∀ (i : Nat) (k : MonthKey),
      (generate_expected_keys (d :: ds))[i]? = some k →
      monthIndex k
        = monthIndex ⟨(minDateList d ds).year, (minDateList d ds).month⟩ + i := by
    intro i k hk
    rw [hgen] at hk
    exact expectedMonthsLoop_get _ _ hvmin.1 hvmin.2.1 i k hk
  have hvalid : ∀ k ∈ generate_expected_keys (d :: ds),
      1 ≤ k.month ∧ k.month ≤ 12 := by
    intro k hk
    rw [hgen] at hk
    exact expectedMonthsLoop_valid _ _ _ hvmin.1 hvmin.2.1 k hk
  have hcond : dateLe ⟨(minDateList d ds).year, (minDateList d ds).month, 1⟩
      (maxDateList d ds) := by
    apply (dateLe_first_iff hvmin.1 hvmin.2.1 hvmax).mpr
    simp only [monthIndex] at hidx
    exact hidx
  refine ⟨?_, hget, hvalid, ?_, ?_, ?_, rfl, by decide⟩
  · rw [hlen]
    omega
  · rw [hgen]
    exact expectedMonthsLoop_chain _ _ _
  · rw [hgen]
    simp only [expectedMonthsLoop]
    rw [if_pos hcond]
    rfl
  · have hpos : 0 < (generate_expected_keys (d :: ds)).length := by
      rw [hlen]
      omega
    rw [getLast?_eq_get _ hpos]
    have hg : (generate_expected_keys (d :: ds))[(generate_expected_keys (d :: ds)).length - 1]?
        = some ((generate_expected_keys (d :: ds)).get
            ⟨(generate_expected_keys (d :: ds)).length - 1, by omega⟩) := by
      rw [List.getElem?_eq_getElem (by omega)]
      simp [List.get_eq_getElem]
    have hidx2 := hget _ _ hg
    have hmem := List.get_mem (generate_expected_keys (d :: ds))
      ((generate_expected_keys (d :: ds)).length - 1) (by omega)
    have hvk := hvalid _ hmem
    have hvmaxk : 1 ≤ (maxDateList d ds).month ∧ (maxDateList d ds).month ≤ 12 := by
      unfold validDate at hvmax
      exact ⟨hvmax.1, hvmax.2.1⟩
    congr 1
    apply monthKey_inj hvk.1 hvk.2 hvmaxk.1 hvmaxk.2
    rw [hidx2, hlen]
    omega

theorem calendar_expander_range_witness :
    (generate_expected_keys [⟨2023, 11, 15⟩, ⟨2024, 2, 3⟩]).length = 4
    ∧ generate_expected_months [⟨2023, 11, 15⟩, ⟨2024, 2, 3⟩]
        = ["2023-11", "2023-12", "2024-01", "2024-02"] :=
  ⟨(calendar_expander_range ⟨2023, 11, 15⟩ [⟨2024, 2, 3⟩] (by decide)).1,
   (calendar_expander_range ⟨2023, 11, 15⟩ [⟨2024, 2, 3⟩] (by decide)).2.2.2.2.2.2.2⟩

theorem identify_some_map_snd (p : String) (stats expected : List String) :
    (identify_missing_data_for_pair p (some stats) expected).map Prod.snd
      = expected.filter (fun month => !decide (month ∈ stats)) := by
  simp [identify_missing_data_for_pair, List.map_map, Function.comp]

/-- Claim C1: with an existing monthly-stats collection, the Gap Detector's
output is exactly the months of the expected list that are not present in the
pair's stats, in the expected list's relative order (a sublist of it), each
entry carrying the pair; e.g. stats ["2024-01","2024-03"] against expected
["2024-01","2024-02","2024-03"] yields missing = ["2024-02"]. -/
theorem gap_detector_present_stats (currency_pair : String)
    (stats expected_months : List String) :
    (∀ e ∈ identify_missing_data_for_pair currency_pair (some stats) expected_months,
      e.1 = currency_pair)
    ∧ ((identify_missing_data_for_pair currency_pair (some stats)
        expected_months).map Prod.snd).Sublist expected_months
    ∧ (∀ m : String,
        m ∈ (identify_missing_data_for_pair currency_pair (some stats)
          expected_months).map Prod.snd ↔ (m ∈ expected_months ∧ ¬ m ∈ stats))
    ∧ identify_missing_data_for_pair "EUR_USD" (some ["2024-01", "2024-03"])
        ["2024-01", "2024-02", "2024-03"] = [("EUR_USD", "2024-02")] := by
  refine ⟨?_, ?_, ?_, by decide⟩
  · intro e he
    simp only [identify_missing_data_for_pair, List.mem_map] at he
    obtain ⟨m, hm, rfl⟩ := he
    rfl
  · rw [identify_some_map_snd]
    exact List.filter_sublist _
  · intro m
    rw [identify_some_map_snd, List.mem_filter]
    simp

theorem gap_detector_present_stats_witness :
    identify_missing_data_for_pair "EUR_USD" (some ["2024-01", "2024-03"])
      ["2024-01", "2024-02", "2024-03"] = [("EUR_USD", "2024-02")] :=
  (gap_detector_present_stats "EUR_USD" ["2024-01", "2024-03"]
    ["2024-01", "2024-02", "2024-03"]).2.2.2

/-- Claim C6: with a wholly absent monthly-stats collection, the Gap Detector
succeeds and emits exactly one missing entry per expected month, in order,
each carrying the pair's identifier. -/
theorem gap_detector_absent_stats (currency_pair : String)
    (expected_months : List String) :
    (identify_missing_data_for_pair currency_pair none expected_months).length
        = expected_months.length
    ∧ (identify_missing_data_for_pair currency_pair none
        expected_months).map Prod.snd = expected_months
    ∧ (∀ e ∈ identify_missing_data_for_pair currency_pair none expected_months,
        e.1 = currency_pair) := by
  refine ⟨?_, ?_, ?_⟩
  · simp [identify_missing_data_for_pair]
  · simp [identify_missing_data_for_pair, List.map_map, Function.comp]
  · intro e he
    simp only [identify_missing_data_for_pair, List.mem_map] at he
    obtain ⟨m, hm, rfl⟩ := he
    rfl

theorem gap_detector_absent_stats_witness :
    (identify_missing_data_for_pair "EUR_SEK" none
        ["2024-01", "2024-02", "2024-03"]).length
      = (["2024-01", "2024-02", "2024-03"] : List String).length
    ∧ (identify_missing_data_for_pair "EUR_SEK" none
        ["2024-01", "2024-02", "2024-03"]).map Prod.snd
      = ["2024-01", "2024-02", "2024-03"] :=
  ⟨(gap_detector_absent_stats "EUR_SEK" ["2024-01", "2024-02", "2024-03"]).1,
   (gap_detector_absent_stats "EUR_SEK" ["2024-01", "2024-02", "2024-03"]).2.1⟩

/-- Claim C8: with no observed dates, the Calendar Expander returns the empty
month sequence, and the Gap Detector then produces zero missing entries for
every pair (with or without a stats file); a normal outcome, not an error. -/
theorem calendar_empty_input :
    generate_expected_months ([] : List Date) = []
    ∧ generate_expected_keys ([] : List Date) = []
    ∧ ∀ (currency_pair : String) (monthly_stats : Option (List String)),
        identify_missing_data_for_pair currency_pair monthly_stats [] = [] := by
  refine ⟨rfl, rfl, ?_⟩
  intro p ms
  cases ms with
  | none => rfl
  | some s => rfl

theorem calendar_empty_input_witness :
    identify_missing_data_for_pair "EUR_USD" none [] = [] :=
  calendar_empty_input.2.2 "EUR_USD" none

/-- Claim C4: the Gap Aggregator's output is, as a multiset, the concatenation
of all input entries (a permutation of the flattened inputs), arranged in
ascending (pair string, month string) order. -/
theorem gap_aggregator_sorted_perm (missing_data_files : List (List MissingEntry))
    (pairs_file : List String) :
    List.Perm (aggregate_missing_data missing_data_files pairs_file)
      missing_data_files.flatten
    ∧ List.Sorted entryLe (aggregate_missing_data missing_data_files pairs_file) :=
  ⟨List.perm_insertionSort entryLe _, List.sorted_insertionSort entryLe _⟩

theorem gap_aggregator_sorted_perm_witness :
    List.Perm
      (aggregate_missing_data [[("EUR_USD", "2024-02")], [("EUR_SEK", "2024-01")]]
        ["EUR_SEK", "EUR_USD"])
      ([[("EUR_USD", "2024-02")], [("EUR_SEK", "2024-01")]] :
        List (List MissingEntry)).flatten :=
  (gap_aggregator_sorted_perm [[("EUR_USD", "2024-02")], [("EUR_SEK", "2024-01")]]
    ["EUR_SEK", "EUR_USD"]).1

/-- Claim C7: the Gap Aggregator is invariant under reordering of the per-pair
missing-entry sequences and of the entries within them: inputs with the same
entries (as a multiset) produce the same sorted output. -/
theorem gap_aggregator_perm_invariant
    (files1 files2 : List (List MissingEntry)) (pairs1 pairs2 : List String)
    (h : List.Perm files1.flatten files2.flatten) :
    aggregate_missing_data files1 pairs1 = aggregate_missing_data files2 pairs2 := by
  have hs1 : List.Sorted entryLe (aggregate_missing_data files1 pairs1) :=
    List.sorted_insertionSort entryLe _
  have hs2 : List.Sorted entryLe (aggregate_missing_data files2 pairs2) :=
    List.sorted_insertionSort entryLe _
  have hp : List.Perm (aggregate_missing_data files1 pairs1)
      (aggregate_missing_data files2 pairs2) :=
    ((List.perm_insertionSort entryLe _).trans h).trans
      (List.perm_insertionSort entryLe _).symm
  exact List.eq_of_perm_of_sorted hp hs1 hs2

theorem gap_aggregator_perm_invariant_witness :
    aggregate_missing_data
        [[("EUR_USD", "2024-02"), ("EUR_SEK", "2024-01")], [("EUR_SEK", "2024-03")]]
        ["EUR_SEK"]
      = aggregate_missing_data
        [[("EUR_SEK", "2024-03"), ("EUR_SEK", "2024-01")], [("EUR_USD", "2024-02")]]
        ["EUR_USD"] :=
  gap_aggregator_perm_invariant _ _ _ _ (by decide)

/-- Claim C3, counterexample: the Gap Aggregator, given an input entry whose
pair is outside the known-pairs set, emits that entry anyway — so it is not
true for every input collection and known-pairs set that every output entry's
pair belongs to the known set. -/
theorem gap_aggregator_unknown_pair_counterexample :
    ("AAA_BBB", "2024-01")
        ∈ aggregate_missing_data [[("AAA_BBB", "2024-01")]] ["EUR_USD"]
    ∧ ¬ ("AAA_BBB" ∈ ["EUR_USD"]) := by
  decide

/-- Claim C3 (amended): every entry of the Gap Aggregator's output comes from
the input entries (the aggregator fabricates nothing); consequently, when
every input entry's pair belongs to the known-pairs set — as in the pipeline,
where the inputs are produced per known pair — every output entry is for a
known pair. -/
theorem gap_aggregator_known_pairs (missing_data_files : List (List MissingEntry))
    (pairs_file : List String)
    (h : ∀ e ∈ missing_data_files.flatten, e.1 ∈ pairs_file) :
    ∀ e ∈ aggregate_missing_data missing_data_files pairs_file,
      e ∈ missing_data_files.flatten ∧ e.1 ∈ pairs_file := by
  intro e he
  have hmem : e ∈ missing_data_files.flatten :=
    (List.perm_insertionSort entryLe missing_data_files.flatten).mem_iff.mp he
  exact ⟨hmem, h e hmem⟩

theorem gap_aggregator_known_pairs_witness :
    ("EUR_USD", "2024-02")
        ∈ ([[("EUR_USD", "2024-02")]] : List (List MissingEntry)).flatten
    ∧ ("EUR_USD", "2024-02").1 ∈ ["EUR_USD"] :=
  gap_aggregator_known_pairs [[("EUR_USD", "2024-02")]] ["EUR_USD"] (by decide)
    ("EUR_USD", "2024-02") (by decide)

theorem foldl_min_le_init (xs : List ℚ) (x : ℚ) : xs.foldl min x ≤ x := by
  induction xs generalizing x with
  | nil => simp
  | cons a t ih =>
    simp only [List.foldl_cons]
    exact le_trans (ih (min x a)) (min_le_left x a)

theorem foldl_min_le_mem (xs : List ℚ) (x y : ℚ) (hy : y ∈ xs) :
    xs.foldl min x ≤ y := by
  induction xs generalizing x with
  | nil => simp at hy
  | cons a t ih =>
    simp only [List.foldl_cons]
    rcases List.mem_cons.mp hy with rfl | hy1
    · exact le_trans (foldl_min_le_init t (min x y)) (min_le_right x y)
    · exact ih (min x a) hy1

theorem listMin_le_mem (l : List ℚ) (y : ℚ) (hy : y ∈ l) : listMin l ≤ y := by
  cases l with
  | nil => simp at hy
  | cons x xs =>
    simp only [listMin]
    rcases List.mem_cons.mp hy with rfl | hy1
    · exact foldl_min_le_init xs y
    · exact foldl_min_le_mem xs x y hy1

theorem init_le_foldl_max (xs : List ℚ) (x : ℚ) : x ≤ xs.foldl max x := by
  induction xs generalizing x with
  | nil => simp
  | cons a t ih =>
    simp only [List.foldl_cons]
    exact le_trans (le_max_left x a) (ih (max x a))

theorem mem_le_foldl_max (xs : List ℚ) (x y : ℚ) (hy : y ∈ xs) :
    y ≤ xs.foldl max x := by
  induction xs generalizing x with
  | nil => simp at hy
  | cons a t ih =>
    simp only [List.foldl_cons]
    rcases List.mem_cons.mp hy with rfl | hy1
    · exact le_trans (le_max_right x y) (init_le_foldl_max t (max x y))
    · exact ih (max x a) hy1

theorem mem_le_listMax (l : List ℚ) (y : ℚ) (hy : y ∈ l) : y ≤ listMax l := by
  cases l with
  | nil => simp at hy
  | cons x xs =>
    simp only [listMax]
    rcases List.mem_cons.mp hy with rfl | hy1
    · exact init_le_foldl_max xs y
    · exact mem_le_foldl_max xs x y hy1

theorem length_mul_le_sum (l : List ℚ) (m : ℚ) (h : ∀ x ∈ l, m ≤ x) :
    (l.length : ℚ) * m ≤ l.sum := by
  induction l with
  | nil => simp
  | cons a t ih =>
    simp only [List.length_cons, List.sum_cons]
    have ha := h a (List.mem_cons_self _ _)
    have ht := ih (fun x hx => h x (List.mem_cons_of_mem _ hx))
    have hexp : ((t.length + 1 : Nat) : ℚ) * m = (t.length : ℚ) * m + m := by
      push_cast
      ring
    rw [hexp]
    linarith

theorem sum_le_length_mul (l : List ℚ) (m : ℚ) (h : ∀ x ∈ l, x ≤ m) :
    l.sum ≤ (l.length : ℚ) * m := by
  induction l with
  | nil => simp
  | cons a t ih =>
    simp only [List.length_cons, List.sum_cons]
    have ha := h a (List.mem_cons_self _ _)
    have ht := ih (fun x hx => h x (List.mem_cons_of_mem _ hx))
    have hexp : ((t.length + 1 : Nat) : ℚ) * m = (t.length : ℚ) * m + m := by
      push_cast
      ring
    rw [hexp]
    linarith

theorem listMin_le_mean (l : List ℚ) (hl : l ≠ []) :
    listMin l ≤ l.sum / (l.length : ℚ) := by
  have hlen : 0 < (l.length : ℚ) := by
    exact_mod_cast List.length_pos.mpr hl
  rw [le_div_iff₀ hlen, mul_comm]
  exact length_mul_le_sum l (listMin l) (fun x hx => listMin_le_mem l x hx)

theorem mean_le_listMax (l : List ℚ) (hl : l ≠ []) :
    l.sum / (l.length : ℚ) ≤ listMax l := by
  have hlen : 0 < (l.length : ℚ) := by
    exact_mod_cast List.length_pos.mpr hl
  rw [div_le_iff₀ hlen, mul_comm]
  exact sum_le_length_mul l (listMax l) (fun x hx => mem_le_listMax l x hx)

/-- Claim C5: whenever `compute_monthly_stats` succeeds, every output row has
low <= average <= high (low/high/average being the min/max/arithmetic mean of
that month's rates), and every output row's month has at least one observation
among the input rows (no row for a month with zero observations). -/
theorem monthly_aggregator_bounds (f : CleanedFile) (pair : String)
    (stats : List MonthlyStat)
    (h : compute_monthly_stats f = some (pair, stats)) :
    ∀ s ∈ stats, s.low ≤ s.average ∧ s.average ≤ s.high
      ∧ ∃ r ∈ f.rows, monthStr (rowKey r) = s.month_str := by
  unfold compute_monthly_stats at h
  by_cases hc : f.hasDATE && f.hasRATE
  · rw [if_pos hc] at h
    rw [Option.some.injEq, Prod.mk.injEq] at h
    obtain ⟨hp, hs⟩ := h
    subst hs
    intro s hs
    obtain ⟨k, hk, rfl⟩ := List.mem_map.mp hs
    have hk2 : k ∈ (f.rows.map rowKey).dedup :=
      (List.perm_insertionSort keyLe _).mem_iff.mp hk
    have hk3 : k ∈ f.rows.map rowKey := List.mem_dedup.mp hk2
    obtain ⟨r, hr, hrk⟩ := List.mem_map.mp hk3
    have hrmem : r.RATE ∈ ratesForKey f.rows k := by
      unfold ratesForKey
      exact List.mem_map_of_mem _ (List.mem_filter.mpr ⟨hr, by simp [hrk]⟩)
    have hne : ratesForKey f.rows k ≠ [] := List.ne_nil_of_mem hrmem
    refine ⟨?_, ?_, ⟨r, hr, ?_⟩⟩
    · exact listMin_le_mean _ hne
    · exact mean_le_listMax _ hne
    · rw [hrk]
      rfl
  · rw [if_neg hc] at h
    exact absurd h (by simp)

theorem monthly_aggregator_bounds_witness :
    (statFor [⟨⟨2024, 1, 2⟩, 2⟩, ⟨⟨2024, 1, 15⟩, 4⟩] ⟨2024, 1⟩).low
      ≤ (statFor [⟨⟨2024, 1, 2⟩, 2⟩, ⟨⟨2024, 1, 15⟩, 4⟩] ⟨2024, 1⟩).average :=
  (monthly_aggregator_bounds
    ⟨"EUR_USD.csv", true, true, [⟨⟨2024, 1, 2⟩, 2⟩, ⟨⟨2024, 1, 15⟩, 4⟩]⟩
    (stringReplace "EUR_USD.csv" ".csv" "")
    ((groupKeys [⟨⟨2024, 1, 2⟩, 2⟩, ⟨⟨2024, 1, 15⟩, 4⟩]).map
      (statFor [⟨⟨2024, 1, 2⟩, 2⟩, ⟨⟨2024, 1, 15⟩, 4⟩]))
    rfl
    (statFor [⟨⟨2024, 1, 2⟩, 2⟩, ⟨⟨2024, 1, 15⟩, 4⟩] ⟨2024, 1⟩)
    (List.Mem.head _)).1

/-- Claim C9: an input lacking the DATE or RATE column yields no monthly-stats
output for that pair (`none`), and the flow simply skips that file — the other
files' outputs are unaffected, so downstream sees zero coverage for the pair
rather than a failed run. -/
theorem monthly_aggregator_schema_error (f : CleanedFile)
    (h : f.hasDATE = false ∨ f.hasRATE = false) :
    compute_monthly_stats f = none
    ∧ ∀ (pre post : List CleanedFile),
        compute_monthly_stats_flow (pre ++ f :: post)
          = compute_monthly_stats_flow pre ++ compute_monthly_stats_flow post := by
  have hnone : compute_monthly_stats f = none := by
    unfold compute_monthly_stats
    rcases h with h | h <;> simp [h]
  refine ⟨hnone, ?_⟩
  intro pre post
  unfold compute_monthly_stats_flow
  rw [List.filterMap_append]
  simp [List.filterMap_cons, hnone]

theorem monthly_aggregator_schema_error_witness :
    compute_monthly_stats ⟨"EUR_USD.csv", false, true, []⟩ = none
    ∧ compute_monthly_stats_flow
        ([] ++ (⟨"EUR_USD.csv", false, true, []⟩ : CleanedFile) :: [])
      = compute_monthly_stats_flow [] ++ compute_monthly_stats_flow [] :=
  ⟨(monthly_aggregator_schema_error ⟨"EUR_USD.csv", false, true, []⟩ (Or.inl rfl)).1,
   (monthly_aggregator_schema_error ⟨"EUR_USD.csv", false, true, []⟩ (Or.inl rfl)).2 [] []⟩

theorem mem_collect_fold (files : List NormalizedFile) (acc : List String)
    (x : String) :
    x ∈ files.foldl (fun a f => a ++ collect_currency_pairs f) acc ↔
      x ∈ acc ∨ ∃ f ∈ files, x ∈ collect_currency_pairs f := by
  induction files generalizing acc with
  | nil => simp
  | cons g t ih =>
    simp only [List.foldl_cons]
    rw [ih]
    simp only [List.mem_append, List.exists_mem_cons_iff]
    tauto

/-- Claim C10: the pair collector derives the pair solely from the file's name
(with ".csv" removed), never from its contents: two files with the same name
and different rows collect the same pair, and a file with zero data rows still
contributes its pair to the pairs report (the known-pairs input of the gap
aggregation). -/
theorem pair_collector_name_only :
    (∀ (name : String) (rows1 rows2 : List (List String)),
      collect_currency_pairs ⟨name, rows1⟩ = collect_currency_pairs ⟨name, rows2⟩)
    ∧ ∀ (input_files : List NormalizedFile) (f : NormalizedFile),
        f ∈ input_files → f.rows = [] →
        stringReplace f.name ".csv" "" ∈ collect_currency_pairs_flow input_files := by
  refine ⟨fun name r1 r2 => rfl, ?_⟩
  intro files f hf hrows
  unfold collect_currency_pairs_flow
  apply (List.perm_insertionSort strLe _).mem_iff.mpr
  rw [List.mem_dedup, mem_collect_fold]
  exact Or.inr ⟨f, hf, List.mem_singleton.mpr rfl⟩

theorem pair_collector_name_only_witness :
    ("EUR_USD" : String) ∈ collect_currency_pairs_flow [⟨"EUR_USD.csv", []⟩] :=
  pair_collector_name_only.2 [⟨"EUR_USD.csv", []⟩] ⟨"EUR_USD.csv", []⟩
    (List.mem_singleton.mpr rfl) rfl
